import Mathlib

/-!
Verification of the external sorting engine of normousdb/normous
(src/mongo/db/sorter/sorter.h and its specification).

The public header sorter.h declares SortOptions, SortIteratorInterface,
Sorter and SortedFileWriter; the engine behind those declarations
(accumulation buffer, spill writer, run reader, k-way merge) lives in
sorter.cpp, which is not among the inspected sources.  Definitions below
that embed that engine are therefore modelled from the specification and
say so in their doc comments; SortOptions and its default values are
embedded directly from sorter.h.

Records are kept abstract: the engine is templated on Key and Value and
only ever touches records through the comparator and the memory estimate,
so we model a record as an element of an arbitrary type, the comparator as
a boolean relation le (le a b meaning "compare returns at most zero"), and
the memory estimate memUsageForSorter as a function into Nat.
-/

namespace NormousSorter

/-- Error taxonomy of the sorter, from spec section 7: MemoryLimitExceeded
(budget exceeded while spilling is disallowed), IOError, a deserialization
failure, and InvalidOperation (caller programming error). -/
inductive SorterError where
  | memoryLimitExceeded
  | ioError
  | deserializationError
  | invalidOperation
  deriving DecidableEq, Repr

/-- Runtime options that control the Sorter behavior, embedded from
sorter.h: limit is a long long (number of KV pairs to be returned, 0 for
no limit), maxMemoryUsageBytes a size_t (approximate), extSortAllowed a
bool (if false, uassert if more memory is needed than allowed). -/
structure SortOptions where
  limit : Int
  maxMemoryUsageBytes : Nat
  extSortAllowed : Bool
  deriving DecidableEq, Repr

/-- The default constructor of SortOptions, embedded from sorter.h:
limit 0, maxMemoryUsageBytes 64*1024*1024, extSortAllowed false. -/
def SortOptions.default : SortOptions :=
  { limit := 0
  , maxMemoryUsageBytes := 64 * 1024 * 1024
  , extSortAllowed := false }

/-- Modelled from the spec: the state of the Sorter facade (spec sections
3 and 4.6); sorter.cpp is not among the inspected sources.  The facade
owns the current unsealed in-memory buffer, the running total of the
estimated memory usage of the buffer, the chronological list of sealed
runs (each sorted when it was sealed), and whether done() was called. -/
structure SorterState (α : Type) where
  buffer : List α
  memUsed : Nat
  runs : List (List α)
  doneCalled : Bool
  deriving DecidableEq, Repr

/-- The freshly constructed facade: created empty (spec section 3). -/
def SorterState.init (α : Type) : SorterState α :=
  { buffer := [], memUsed := 0, runs := [], doneCalled := false }

/-- Modelled from the spec: Sorter::make validates the configuration; a
negative or otherwise invalid configuration value supplied at
construction is a caller programming error, rejected immediately with
InvalidOperation (spec section 7). -/
def Sorter.make (α : Type) (opts : SortOptions) :
    Except SorterError (SorterState α) :=
  if opts.limit < 0 then .error .invalidOperation
  else .ok (SorterState.init α)

/-- Modelled from the spec: Sorter::add (spec section 4.6).  Calling add
after done() is rejected with InvalidOperation.  Otherwise the record is
appended to the in-memory buffer and the running memory estimate is
updated using the memory estimate of the record; if the estimate now
exceeds maxMemoryUsageBytes then, when extSortAllowed is true, the buffer
is sorted in place (a stable sort, as std::stable_sort) and sealed as a
new run and the buffer and its counter are cleared, and when
extSortAllowed is false the call fails with MemoryLimitExceeded. -/
def Sorter.add (opts : SortOptions) (le : α → α → Bool) (mem : α → Nat)
    (st : SorterState α) (r : α) : Except SorterError (SorterState α) :=
  if st.doneCalled then .error .invalidOperation
  else
    let buf := st.buffer ++ [r]
    let m := st.memUsed + mem r
    if opts.maxMemoryUsageBytes < m then
      if opts.extSortAllowed then
        .ok { buffer := []
            , memUsed := 0
            , runs := st.runs ++ [List.mergeSort buf le]
            , doneCalled := false }
      else .error .memoryLimitExceeded
    else
      .ok { st with buffer := buf, memUsed := m }

/-- Feeding a whole sequence of records to the facade, one add at a time;
the first fatal condition aborts the sort (spec section 7). -/
def Sorter.addAll (opts : SortOptions) (le : α → α → Bool) (mem : α → Nat)
    (st : SorterState α) (rs : List α) : Except SorterError (SorterState α) :=
  rs.foldlM (Sorter.add opts le mem) st

/-- Modelled from the spec: the Merge Engine (spec section 4.5) combines
the sealed runs, each individually non-decreasing, into one globally
sorted sequence by repeatedly taking the smallest available head.  We
model it as ordered two-way merges of the runs in chronological order,
taking from the earlier run on ties. -/
def mergeRuns (le : α → α → Bool) : List (List α) → List α
  | [] => []
  | r :: rs => List.merge r (mergeRuns le rs) le

/-- Modelled from the spec: limit handling (spec section 4.5): with limit
zero every record is produced, and with limit K > 0 emission stops after
K records. -/
def applyLimit (limit : Int) (out : List α) : List α :=
  if limit = 0 then out else out.take limit.toNat

/-- Modelled from the spec: Sorter::done (spec section 4.6): forbids
further add calls, sorts the residual buffer in place, and merges the
sealed runs together with the residual in-memory run, honouring the
limit.  The result is the state after done and the full sequence the
returned iterator yields. -/
def Sorter.done (opts : SortOptions) (le : α → α → Bool)
    (st : SorterState α) : SorterState α × List α :=
  ({ st with doneCalled := true }
  , applyLimit opts.limit
      (mergeRuns le (st.runs ++ [List.mergeSort st.buffer le])))

/-- The whole pipeline: construct a sorter, add every record, call done
and drain the returned iterator. -/
def sortOutput (opts : SortOptions) (le : α → α → Bool) (mem : α → Nat)
    (rs : List α) : Except SorterError (List α) := do
  let st0 ← Sorter.make α opts
  let st1 ← Sorter.addAll opts le mem st0 rs
  pure (Sorter.done opts le st1).2

/-!
Helper lemmas.  The central fact is that the model's spill-and-merge
pipeline computes exactly the stable sort of everything added: the buffer
is stably sorted at each seal, and a left-biased two-way merge of the
stable sorts of two consecutive chunks is the stable sort of their
concatenation (mergeSort_append below, proved through the enumeration
characterisation of stability).
-/

theorem enumLE_antisymm_on {α : Type} {le : α → α → Bool} {L : List (Nat × α)}
    (hnd : (L.map Prod.fst).Nodup) :
    ∀ a b : Nat × α, a ∈ L → b ∈ L →
      List.enumLE le a b = true → List.enumLE le b a = true → a = b := by
  rintro ⟨i, a⟩ ⟨j, b⟩ ha hb hab hba
  simp only [List.enumLE] at hab hba
  by_cases h1 : le a b = true <;> by_cases h2 : le b a = true <;>
    simp [h1, h2] at hab hba
  have hij : i = j := Nat.le_antisymm hab hba
  subst hij
  exact List.inj_on_of_nodup_map hnd ha hb rfl

theorem mergeSort_append {α : Type} (le : α → α → Bool)
    (htrans : ∀ a b c, le a b = true → le b c = true → le a c = true)
    (htotal : ∀ a b, (le a b || le b a) = true)
    (l₁ l₂ : List α) :
    List.mergeSort (l₁ ++ l₂) le
      = List.merge (List.mergeSort l₁ le) (List.mergeSort l₂ le) le := by
  have hmemL : ∀ x : Nat × α,
      x ∈ List.mergeSort ((l₁ ++ l₂).enum) (List.enumLE le) →
      x ∈ (l₁ ++ l₂).enum := by
    intro x hx
    exact List.mem_mergeSort.mp hx
  have hmemR : ∀ x : Nat × α,
      x ∈ List.merge (List.mergeSort l₁.enum (List.enumLE le))
            (List.mergeSort (List.enumFrom l₁.length l₂) (List.enumLE le))
            (List.enumLE le) →
      x ∈ (l₁ ++ l₂).enum := by
    intro x hx
    rw [List.enum_append]
    rcases List.mem_merge.mp hx with h | h
    · exact List.mem_append_left _ (List.mem_mergeSort.mp h)
    · exact List.mem_append_right _ (List.mem_mergeSort.mp h)
  have hnd : (((l₁ ++ l₂).enum).map Prod.fst).Nodup := by
    rw [List.enum_map_fst]
    exact List.nodup_range _
  have hperm : List.Perm (List.mergeSort ((l₁ ++ l₂).enum) (List.enumLE le))
      (List.merge (List.mergeSort l₁.enum (List.enumLE le))
        (List.mergeSort (List.enumFrom l₁.length l₂) (List.enumLE le))
        (List.enumLE le)) := by
    have p1 := List.mergeSort_perm ((l₁ ++ l₂).enum) (List.enumLE le)
    have p2 : List.Perm (l₁.enum ++ List.enumFrom l₁.length l₂)
        (List.mergeSort l₁.enum (List.enumLE le)
          ++ List.mergeSort (List.enumFrom l₁.length l₂) (List.enumLE le)) :=
      List.Perm.append (List.mergeSort_perm _ _).symm
        (List.mergeSort_perm _ _).symm
    have p3 := @List.merge_perm_append (Nat × α) (List.enumLE le)
      (List.mergeSort l₁.enum (List.enumLE le))
      (List.mergeSort (List.enumFrom l₁.length l₂) (List.enumLE le))
    refine p1.trans ?_
    rw [List.enum_append]
    exact p2.trans p3.symm
  have e1 : List.mergeSort ((l₁ ++ l₂).enum) (List.enumLE le)
      = List.merge (List.mergeSort l₁.enum (List.enumLE le))
          (List.mergeSort (List.enumFrom l₁.length l₂) (List.enumLE le))
          (List.enumLE le) :=
    @List.Perm.eq_of_sorted (Nat × α)
      (fun a b => List.enumLE le a b = true) _ _
      (fun a b ha hb => enumLE_antisymm_on hnd a b (hmemL a ha) (hmemR b hb))
      (List.sorted_mergeSort (List.enumLE_trans htrans)
        (List.enumLE_total htotal) _)
      (List.sorted_merge (List.enumLE_trans htrans)
        (List.enumLE_total htotal) _ _
        (List.sorted_mergeSort (List.enumLE_trans htrans)
          (List.enumLE_total htotal) _)
        (List.sorted_mergeSort (List.enumLE_trans htrans)
          (List.enumLE_total htotal) _))
      hperm
  have e2 := congrArg (List.map (fun x : Nat × α => x.2)) e1
  rw [List.mergeSort_enum] at e2
  rw [List.merge_stable] at e2
  · rw [List.mergeSort_enum, List.mergeSort_enum.go] at e2
    exact e2
  · rintro ⟨i, a⟩ ⟨j, b⟩ hx hy
    have hx2 : (i, a) ∈ l₁.enum := List.mem_mergeSort.mp hx
    have hy2 : (j, b) ∈ List.enumFrom l₁.length l₂ := List.mem_mergeSort.mp hy
    have hi : i < l₁.length := by
      have h := List.mem_enumFrom (by simpa [List.enum] using hx2)
      omega
    have hj : l₁.length ≤ j := (List.mem_enumFrom hy2).1
    show i ≤ j
    omega

theorem mergeRuns_map_mergeSort {α : Type} (le : α → α → Bool)
    (htrans : ∀ a b c, le a b = true → le b c = true → le a c = true)
    (htotal : ∀ a b, (le a b || le b a) = true)
    (chunks : List (List α)) :
    mergeRuns le (chunks.map (fun c => List.mergeSort c le))
      = List.mergeSort chunks.flatten le := by
  induction chunks with
  | nil => simp [mergeRuns]
  | cons c cs ih =>
    simp only [List.map_cons, mergeRuns, ih, List.flatten_cons]
    rw [mergeSort_append le htrans htotal]

theorem mergeRuns_perm_flatten {α : Type} (le : α → α → Bool)
    (rls : List (List α)) :
    List.Perm (mergeRuns le rls) rls.flatten := by
  induction rls with
  | nil => simp [mergeRuns]
  | cons r rs ih =>
    simp only [mergeRuns, List.flatten_cons]
    exact (List.merge_perm_append le).trans (List.Perm.append_left r ih)

theorem flatten_map_mergeSort_perm {α : Type} (le : α → α → Bool)
    (cs : List (List α)) :
    List.Perm (cs.map (fun c => List.mergeSort c le)).flatten cs.flatten := by
  induction cs with
  | nil => simp
  | cons c cs ih =>
    simp only [List.map_cons, List.flatten_cons]
    exact List.Perm.append (List.mergeSort_perm c le) ih

theorem add_ok_cases {α : Type} (opts : SortOptions) (le : α → α → Bool)
    (mem : α → Nat) (st : SorterState α) (r : α) (hd : st.doneCalled = false) :
    (opts.maxMemoryUsageBytes < st.memUsed + mem r ∧ opts.extSortAllowed = true ∧
      Sorter.add opts le mem st r = .ok
        { buffer := [], memUsed := 0
        , runs := st.runs ++ [List.mergeSort (st.buffer ++ [r]) le]
        , doneCalled := false })
    ∨ (opts.maxMemoryUsageBytes < st.memUsed + mem r ∧ opts.extSortAllowed = false ∧
      Sorter.add opts le mem st r = .error .memoryLimitExceeded)
    ∨ (st.memUsed + mem r ≤ opts.maxMemoryUsageBytes ∧
      Sorter.add opts le mem st r = .ok
        { st with buffer := st.buffer ++ [r], memUsed := st.memUsed + mem r }) := by
  by_cases hb : opts.maxMemoryUsageBytes < st.memUsed + mem r
  · by_cases he : opts.extSortAllowed
    · exact Or.inl ⟨hb, he, by simp [Sorter.add, hd, hb, he]⟩
    · refine Or.inr (Or.inl ⟨hb, by simpa using he, ?_⟩)
      simp [Sorter.add, hd, hb, he]
  · refine Or.inr (Or.inr ⟨by omega, ?_⟩)
    simp [Sorter.add, hd, hb]

theorem addAll_structure {α : Type} (opts : SortOptions) (le : α → α → Bool)
    (mem : α → Nat) :
    ∀ (rs : List α) (st st2 : SorterState α), st.doneCalled = false →
      Sorter.addAll opts le mem st rs = .ok st2 →
      st2.doneCalled = false ∧
      ∃ chunks : List (List α),
        st2.runs = st.runs ++ chunks.map (fun c => List.mergeSort c le) ∧
        chunks.flatten ++ st2.buffer = st.buffer ++ rs := by
  intro rs
  induction rs with
  | nil =>
    intro st st2 hd h
    simp only [Sorter.addAll, List.foldlM_nil] at h
    cases h
    exact ⟨hd, [], by simp, by simp⟩
  | cons r rs ih =>
    intro st st2 hd h
    rw [Sorter.addAll, List.foldlM_cons] at h
    rcases add_ok_cases opts le mem st r hd with
      ⟨hb, he, ha⟩ | ⟨hb, he, ha⟩ | ⟨hb, ha⟩
    · rw [ha] at h
      replace h : Sorter.addAll opts le mem
          { buffer := [], memUsed := 0
          , runs := st.runs ++ [List.mergeSort (st.buffer ++ [r]) le]
          , doneCalled := false } rs = .ok st2 := h
      obtain ⟨hd2, chunks, hruns, hflat⟩ := ih _ st2 rfl h
      refine ⟨hd2, (st.buffer ++ [r]) :: chunks, ?_, ?_⟩
      · simpa [List.append_assoc] using hruns
      · simp only [List.flatten_cons]
        simp only [] at hflat
        rw [List.append_assoc, hflat]
        simp
    · rw [ha] at h
      replace h : (Except.error SorterError.memoryLimitExceeded
          : Except SorterError (SorterState α)) = .ok st2 := h
      cases h
    · rw [ha] at h
      replace h : Sorter.addAll opts le mem
          { st with buffer := st.buffer ++ [r], memUsed := st.memUsed + mem r }
          rs = .ok st2 := h
      obtain ⟨hd2, chunks, hruns, hflat⟩ :=
        ih { st with buffer := st.buffer ++ [r], memUsed := st.memUsed + mem r }
          st2 hd h
      refine ⟨hd2, chunks, by simpa using hruns, ?_⟩
      rw [hflat]
      simp

theorem addAll_ok_of_ext {α : Type} (opts : SortOptions) (le : α → α → Bool)
    (mem : α → Nat) (he : opts.extSortAllowed = true) :
    ∀ (rs : List α) (st : SorterState α), st.doneCalled = false →
      ∃ st2, Sorter.addAll opts le mem st rs = .ok st2 := by
  intro rs
  induction rs with
  | nil =>
    intro st hd
    exact ⟨st, rfl⟩
  | cons r rs ih =>
    intro st hd
    rcases add_ok_cases opts le mem st r hd with
      ⟨hb, _, ha⟩ | ⟨hb, he2, ha⟩ | ⟨hb, ha⟩
    · obtain ⟨st2, h2⟩ := ih
        { buffer := [], memUsed := 0
        , runs := st.runs ++ [List.mergeSort (st.buffer ++ [r]) le]
        , doneCalled := false } rfl
      refine ⟨st2, ?_⟩
      rw [Sorter.addAll, List.foldlM_cons, ha]
      exact h2
    · rw [he] at he2
      cases he2
    · obtain ⟨st2, h2⟩ := ih
        { st with buffer := st.buffer ++ [r], memUsed := st.memUsed + mem r } hd
      refine ⟨st2, ?_⟩
      rw [Sorter.addAll, List.foldlM_cons, ha]
      exact h2

theorem addAll_noSpill {α : Type} (opts : SortOptions) (le : α → α → Bool)
    (mem : α → Nat) :
    ∀ (rs : List α) (st : SorterState α), st.doneCalled = false →
      st.memUsed + (rs.map mem).sum ≤ opts.maxMemoryUsageBytes →
      Sorter.addAll opts le mem st rs =
        .ok { st with
              buffer := st.buffer ++ rs,
              memUsed := st.memUsed + (rs.map mem).sum } := by
  intro rs
  induction rs with
  | nil =>
    intro st hd hsum
    simp only [Sorter.addAll, List.foldlM_nil, List.append_nil, List.map_nil,
      List.sum_nil, Nat.add_zero]
    rfl
  | cons r rs ih =>
    intro st hd hsum
    simp only [List.map_cons, List.sum_cons] at hsum
    rcases add_ok_cases opts le mem st r hd with
      ⟨hb, _, _⟩ | ⟨hb, _, _⟩ | ⟨hb, ha⟩
    · omega
    · omega
    · rw [Sorter.addAll, List.foldlM_cons, ha]
      have h2 := ih
        { st with buffer := st.buffer ++ [r], memUsed := st.memUsed + mem r }
        hd (by simpa using by omega)
      refine Eq.trans (h2 : Sorter.addAll opts le mem _ rs = _) ?_
      simp [List.append_assoc]
      omega

theorem sortOutput_ok_elim {α : Type} (opts : SortOptions) (le : α → α → Bool)
    (mem : α → Nat) (rs out : List α)
    (h : sortOutput opts le mem rs = .ok out) :
    ¬ opts.limit < 0 ∧
    ∃ st2, Sorter.addAll opts le mem (SorterState.init α) rs = .ok st2 ∧
      out = (Sorter.done opts le st2).2 := by
  unfold sortOutput at h
  by_cases hl : opts.limit < 0
  · rw [Sorter.make, if_pos hl] at h
    replace h : (Except.error SorterError.invalidOperation
        : Except SorterError (List α)) = .ok out := h
    cases h
  · rw [Sorter.make, if_neg hl] at h
    replace h : (Sorter.addAll opts le mem (SorterState.init α) rs).map
        (fun st1 => (Sorter.done opts le st1).2) = .ok out := h
    cases haa : Sorter.addAll opts le mem (SorterState.init α) rs with
    | error e =>
      rw [haa] at h
      replace h : (Except.error e : Except SorterError (List α)) = .ok out := h
      cases h
    | ok st1 =>
      rw [haa] at h
      replace h : (Except.ok (Sorter.done opts le st1).2
          : Except SorterError (List α)) = .ok out := h
      cases h
      exact ⟨hl, st1, rfl, rfl⟩

theorem done_output_of_addAll {α : Type} (opts : SortOptions) (le : α → α → Bool)
    (mem : α → Nat)
    (htrans : ∀ a b c, le a b = true → le b c = true → le a c = true)
    (htotal : ∀ a b, (le a b || le b a) = true)
    (rs : List α) (st2 : SorterState α)
    (h : Sorter.addAll opts le mem (SorterState.init α) rs = .ok st2) :
    (Sorter.done opts le st2).2
      = applyLimit opts.limit (List.mergeSort rs le) := by
  obtain ⟨-, chunks, hruns, hflat⟩ :=
    addAll_structure opts le mem rs (SorterState.init α) st2 rfl h
  simp only [SorterState.init, List.nil_append] at hruns hflat
  show applyLimit opts.limit
      (mergeRuns le (st2.runs ++ [List.mergeSort st2.buffer le]))
    = applyLimit opts.limit (List.mergeSort rs le)
  rw [hruns]
  have hmap : chunks.map (fun c => List.mergeSort c le)
        ++ [List.mergeSort st2.buffer le]
      = (chunks ++ [st2.buffer]).map (fun c => List.mergeSort c le) := by
    simp
  rw [hmap, mergeRuns_map_mergeSort le htrans htotal]
  have hfl : (chunks ++ [st2.buffer]).flatten = rs := by
    rw [List.flatten_append]
    simpa using hflat
  rw [hfl]

theorem sortOutput_ok_eq {α : Type} (opts : SortOptions) (le : α → α → Bool)
    (mem : α → Nat)
    (htrans : ∀ a b c, le a b = true → le b c = true → le a c = true)
    (htotal : ∀ a b, (le a b || le b a) = true)
    (rs out : List α) (h : sortOutput opts le mem rs = .ok out) :
    out = applyLimit opts.limit (List.mergeSort rs le) := by
  obtain ⟨-, st2, haa, hout⟩ := sortOutput_ok_elim opts le mem rs out h
  rw [hout]
  exact done_output_of_addAll opts le mem htrans htotal rs st2 haa

theorem addAll_overBudget {α : Type} (opts : SortOptions) (le : α → α → Bool)
    (mem : α → Nat) (hext : opts.extSortAllowed = false) :
    ∀ (rs : List α) (st : SorterState α), st.doneCalled = false →
      st.memUsed ≤ opts.maxMemoryUsageBytes →
      opts.maxMemoryUsageBytes < st.memUsed + (rs.map mem).sum →
      Sorter.addAll opts le mem st rs = .error .memoryLimitExceeded := by
  intro rs
  induction rs with
  | nil =>
    intro st hd hm hover
    simp only [List.map_nil, List.sum_nil] at hover
    omega
  | cons r rs ih =>
    intro st hd hm hover
    simp only [List.map_cons, List.sum_cons] at hover
    rcases add_ok_cases opts le mem st r hd with
      ⟨hb, he2, ha⟩ | ⟨hb, _, ha⟩ | ⟨hb, ha⟩
    · rw [hext] at he2
      cases he2
    · rw [Sorter.addAll, List.foldlM_cons, ha]
      rfl
    · rw [Sorter.addAll, List.foldlM_cons, ha]
      exact ih
        { st with buffer := st.buffer ++ [r], memUsed := st.memUsed + mem r }
        hd hb (by simpa using by omega)

theorem addAll_memUsed_inv {α : Type} (opts : SortOptions) (le : α → α → Bool)
    (mem : α → Nat) :
    ∀ (rs : List α) (st st2 : SorterState α), st.doneCalled = false →
      st.memUsed = (st.buffer.map mem).sum →
      st.memUsed ≤ opts.maxMemoryUsageBytes →
      Sorter.addAll opts le mem st rs = .ok st2 →
      st2.memUsed = (st2.buffer.map mem).sum ∧
      st2.memUsed ≤ opts.maxMemoryUsageBytes := by
  intro rs
  induction rs with
  | nil =>
    intro st st2 hd hs hm h
    replace h : (Except.ok st : Except SorterError (SorterState α)) = .ok st2 := h
    cases h
    exact ⟨hs, hm⟩
  | cons r rs ih =>
    intro st st2 hd hs hm h
    rw [Sorter.addAll, List.foldlM_cons] at h
    rcases add_ok_cases opts le mem st r hd with
      ⟨hb, he, ha⟩ | ⟨hb, he, ha⟩ | ⟨hb, ha⟩
    · rw [ha] at h
      replace h : Sorter.addAll opts le mem
          { buffer := [], memUsed := 0
          , runs := st.runs ++ [List.mergeSort (st.buffer ++ [r]) le]
          , doneCalled := false } rs = .ok st2 := h
      exact ih _ st2 rfl (by simp) (Nat.zero_le _) h
    · rw [ha] at h
      replace h : (Except.error SorterError.memoryLimitExceeded
          : Except SorterError (SorterState α)) = .ok st2 := h
      cases h
    · rw [ha] at h
      replace h : Sorter.addAll opts le mem
          { st with buffer := st.buffer ++ [r], memUsed := st.memUsed + mem r }
          rs = .ok st2 := h
      exact ih
        { st with buffer := st.buffer ++ [r], memUsed := st.memUsed + mem r }
        st2 hd (by simp [hs]) hb h

theorem sortOutput_eq_done {α : Type} (opts : SortOptions) (le : α → α → Bool)
    (mem : α → Nat) (rs : List α) (st2 : SorterState α)
    (hl : ¬ opts.limit < 0)
    (haa : Sorter.addAll opts le mem (SorterState.init α) rs = .ok st2) :
    sortOutput opts le mem rs = .ok (Sorter.done opts le st2).2 := by
  unfold sortOutput
  rw [Sorter.make, if_neg hl]
  show (Sorter.addAll opts le mem (SorterState.init α) rs).map
      (fun st1 => (Sorter.done opts le st1).2) = _
  rw [haa]
  rfl

theorem sortOutput_of_addAll_ok {α : Type} (opts : SortOptions)
    (le : α → α → Bool) (mem : α → Nat) (rs : List α) (st2 : SorterState α)
    (htrans : ∀ a b c, le a b = true → le b c = true → le a c = true)
    (htotal : ∀ a b, (le a b || le b a) = true)
    (hl : ¬ opts.limit < 0)
    (haa : Sorter.addAll opts le mem (SorterState.init α) rs = .ok st2) :
    sortOutput opts le mem rs
      = .ok (applyLimit opts.limit (List.mergeSort rs le)) := by
  rw [sortOutput_eq_done opts le mem rs st2 hl haa,
    done_output_of_addAll opts le mem htrans htotal rs st2 haa]

/-!
Reference-counted deletion of one temporary run file.
-/

/-- Modelled from the spec: the deletion responsibility for one temporary
run file (spec sections 4.2, 4.3 and 5; sorter::FileDeleter in sorter.h).
The file's deletion is deferred via reference counting: owners counts the
live references (the writer, then whichever run reader or merge engine
currently holds the run), and deletions counts how many times the file
has been physically removed from disk. -/
structure FileRC where
  owners : Nat
  deletions : Nat
  deriving DecidableEq, Repr

/-- A freshly spilled run file: one owner, never deleted. -/
def FileRC.spilled : FileRC := { owners := 1, deletions := 0 }

/-- Modelled from the spec: handing the run to a further owner (e.g. the
merge engine) increments the reference count. -/
def FileRC.acquire (f : FileRC) : FileRC := { f with owners := f.owners + 1 }

/-- Modelled from the spec: destruction of one owner decrements the
reference count; the destruction of the last owner — normal exhaustion,
an error during iteration, or abandonment — physically deletes the
backing file, and only then. -/
def FileRC.release (f : FileRC) : FileRC :=
  if f.owners = 1 then { owners := 0, deletions := f.deletions + 1 }
  else { f with owners := f.owners - 1 }

/-- Destroying k owners one after the other. -/
def FileRC.releaseAll : Nat → FileRC → FileRC
  | 0, f => f
  | k + 1, f => FileRC.releaseAll k f.release

theorem releaseAll_below (d : Nat) :
    ∀ (k n : Nat), k < n →
      FileRC.releaseAll k { owners := n, deletions := d }
        = { owners := n - k, deletions := d } := by
  intro k
  induction k with
  | zero =>
    intro n hk
    simp [FileRC.releaseAll]
  | succ k ih =>
    intro n hk
    have hn1 : n ≠ 1 := by omega
    have hstep : FileRC.release { owners := n, deletions := d }
        = { owners := n - 1, deletions := d } := by
      simp [FileRC.release, hn1]
    rw [FileRC.releaseAll, hstep, ih (n - 1) (by omega)]
    have : n - 1 - k = n - (k + 1) := by omega
    rw [this]

theorem releaseAll_full (d : Nat) :
    ∀ n : Nat, 0 < n →
      FileRC.releaseAll n { owners := n, deletions := d }
        = { owners := 0, deletions := d + 1 } := by
  intro n
  induction n with
  | zero =>
    intro hn
    omega
  | succ n ih =>
    intro hn
    by_cases h0 : n = 0
    · subst h0
      simp [FileRC.releaseAll, FileRC.release]
    · have hstep : FileRC.release { owners := n + 1, deletions := d }
          = { owners := n, deletions := d } := by
        simp [FileRC.release, h0]
      rw [FileRC.releaseAll, hstep, ih (by omega)]

/-!
The claims.
-/

/-- C1: for every finite sequence of records supplied via Sorter::add
under any total-preorder comparator (le transitive and total), the
iterator returned by done() yields a sequence that is non-decreasing
under that comparator. -/
theorem sorted_order_C1 {α : Type} (opts : SortOptions) (le : α → α → Bool)
    (mem : α → Nat) (rs out : List α)
    (htrans : ∀ a b c, le a b = true → le b c = true → le a c = true)
    (htotal : ∀ a b, (le a b || le b a) = true)
    (h : sortOutput opts le mem rs = .ok out) :
    List.Pairwise (fun a b => le a b = true) out := by
  rw [sortOutput_ok_eq opts le mem htrans htotal rs out h]
  unfold applyLimit
  split
  · exact List.sorted_mergeSort htrans htotal rs
  · exact List.Pairwise.sublist (List.take_sublist _ _)
      (List.sorted_mergeSort htrans htotal rs)

/-- Witness for C1 on the spec's example scenario: adding 5, 3, 1, 4, 2
with the default options yields the non-decreasing output 1, 2, 3, 4, 5. -/
theorem sorted_order_C1_witness :
    List.Pairwise (fun a b : Nat => decide (a ≤ b) = true) [1, 2, 3, 4, 5] :=
  sorted_order_C1 SortOptions.default (fun a b => decide (a ≤ b)) (fun _ => 1)
    [5, 3, 1, 4, 2] [1, 2, 3, 4, 5]
    (by intro a b c hab hbc; simp only [decide_eq_true_eq] at hab hbc ⊢; omega)
    (by intro a b; rcases Nat.le_total a b with hc | hc <;> simp [hc])
    (by simp [sortOutput, Sorter.make, SortOptions.default, Sorter.addAll,
      Sorter.add, SorterState.init, Sorter.done, mergeRuns, applyLimit,
      List.mergeSort, List.splitInTwo, List.merge,
      Bind.bind, Except.bind, Functor.map, Except.map, Pure.pure, Except.pure])

/-- C2: when SortOptions.limit is 0, for every finite sequence of records
added via Sorter::add, the multiset of records produced by fully draining
the iterator returned by done() equals the multiset of records added: no
record is duplicated and none is dropped.  (No assumption on the
comparator is needed for this.) -/
theorem completeness_C2 {α : Type} (opts : SortOptions) (le : α → α → Bool)
    (mem : α → Nat) (rs out : List α)
    (hlimit : opts.limit = 0)
    (h : sortOutput opts le mem rs = .ok out) :
    List.Perm out rs := by
  obtain ⟨hl, st2, haa, hout⟩ := sortOutput_ok_elim opts le mem rs out h
  obtain ⟨-, chunks, hruns, hflat⟩ :=
    addAll_structure opts le mem rs (SorterState.init α) st2 rfl haa
  simp only [SorterState.init, List.nil_append] at hruns hflat
  have hap : ∀ l : List α, applyLimit 0 l = l := by
    intro l
    simp [applyLimit]
  subst hout
  show List.Perm (applyLimit opts.limit
    (mergeRuns le (st2.runs ++ [List.mergeSort st2.buffer le]))) rs
  rw [hlimit, hap]
  refine (mergeRuns_perm_flatten le _).trans ?_
  rw [List.flatten_append, hruns, ← hflat]
  refine List.Perm.append (flatten_map_mergeSort_perm le chunks) ?_
  simpa using List.mergeSort_perm st2.buffer le

/-- Witness for C2: with limit 0 the multiset of the output 1, 2, 3, 4, 5
equals the multiset of the input 5, 3, 1, 4, 2. -/
theorem completeness_C2_witness :
    List.Perm [1, 2, 3, 4, 5] [5, 3, 1, 4, 2] :=
  completeness_C2 SortOptions.default (fun a b : Nat => decide (a ≤ b))
    (fun _ => 1) [5, 3, 1, 4, 2] [1, 2, 3, 4, 5] rfl
    (by simp [sortOutput, Sorter.make, SortOptions.default, Sorter.addAll,
      Sorter.add, SorterState.init, Sorter.done, mergeRuns, applyLimit,
      List.mergeSort, List.splitInTwo, List.merge,
      Bind.bind, Except.bind, Functor.map, Except.map, Pure.pure, Except.pure])

/-- C3: when SortOptions.limit is K > 0, for every finite sequence of
records added via Sorter::add, the iterator returned by done() produces
exactly min(K, number of records added) records, and they are precisely
the K smallest records under the comparator (the output is a front
segment of the stably sorted input: every emitted record compares at most
equal to every record withheld), emitted in sorted order. -/
theorem topN_C3 {α : Type} (opts : SortOptions) (le : α → α → Bool)
    (mem : α → Nat) (rs out : List α) (K : Int)
    (htrans : ∀ a b c, le a b = true → le b c = true → le a c = true)
    (htotal : ∀ a b, (le a b || le b a) = true)
    (hK : 0 < K) (hlimit : opts.limit = K)
    (h : sortOutput opts le mem rs = .ok out) :
    out.length = min K.toNat rs.length ∧
    List.Pairwise (fun a b => le a b = true) out ∧
    ∃ rest : List α, List.mergeSort rs le = out ++ rest ∧
      ∀ a ∈ out, ∀ b ∈ rest, le a b = true := by
  have hout := sortOutput_ok_eq opts le mem htrans htotal rs out h
  rw [hlimit] at hout
  have hKne : K ≠ 0 := by omega
  simp only [applyLimit, if_neg hKne] at hout
  subst hout
  refine ⟨?_, ?_, List.drop K.toNat (List.mergeSort rs le), ?_, ?_⟩
  · rw [List.length_take, List.length_mergeSort]
  · exact List.Pairwise.sublist (List.take_sublist _ _)
      (List.sorted_mergeSort htrans htotal rs)
  · exact (List.take_append_drop _ _).symm
  · have hp := List.sorted_mergeSort htrans htotal rs
    rw [← List.take_append_drop K.toNat (List.mergeSort rs le),
      List.pairwise_append] at hp
    exact hp.2.2

/-- Witness for C3 on the spec's example shape: limit 2 on the input
5, 3, 1, 4, 2 produces exactly the two smallest records 1, 2 in order. -/
theorem topN_C3_witness :
    [1, 2].length = min (Int.toNat 2) [5, 3, 1, 4, 2].length ∧
    List.Pairwise (fun a b : Nat => decide (a ≤ b) = true) [1, 2] ∧
    ∃ rest : List Nat,
      List.mergeSort [5, 3, 1, 4, 2] (fun a b => decide (a ≤ b))
        = [1, 2] ++ rest ∧
      ∀ a ∈ [1, 2], ∀ b ∈ rest, decide (a ≤ b) = true :=
  topN_C3 { SortOptions.default with limit := 2 }
    (fun a b : Nat => decide (a ≤ b)) (fun _ => 1)
    [5, 3, 1, 4, 2] [1, 2] 2
    (by intro a b c hab hbc; simp only [decide_eq_true_eq] at hab hbc ⊢; omega)
    (by intro a b; rcases Nat.le_total a b with hc | hc <;> simp [hc])
    (by omega) rfl
    (by simp [sortOutput, Sorter.make, SortOptions.default, Sorter.addAll,
      Sorter.add, SorterState.init, Sorter.done, mergeRuns, applyLimit,
      List.mergeSort, List.splitInTwo, List.merge,
      Bind.bind, Except.bind, Functor.map, Except.map, Pure.pure, Except.pure])

/-- C4: for a fixed input sequence and comparator, running the Sorter
with a maxMemoryUsageBytes large enough that no spill occurs and running
it with any other configuration in which spills may occur (extSortAllowed
true) and the same limit produce identical output sequences from the
done() iterator. -/
theorem spill_transparency_C4 {α : Type} (opts₁ opts₂ : SortOptions)
    (le : α → α → Bool) (mem : α → Nat) (rs : List α)
    (htrans : ∀ a b c, le a b = true → le b c = true → le a c = true)
    (htotal : ∀ a b, (le a b || le b a) = true)
    (hl : 0 ≤ opts₁.limit) (hlim : opts₁.limit = opts₂.limit)
    (hbig : (rs.map mem).sum ≤ opts₁.maxMemoryUsageBytes)
    (hext : opts₂.extSortAllowed = true) :
    sortOutput opts₁ le mem rs = sortOutput opts₂ le mem rs := by
  have hl1 : ¬ opts₁.limit < 0 := by omega
  have hl2 : ¬ opts₂.limit < 0 := by
    rw [← hlim]
    omega
  have haa1 := addAll_noSpill opts₁ le mem rs (SorterState.init α) rfl
    (by simpa [SorterState.init] using hbig)
  obtain ⟨st2, haa2⟩ :=
    addAll_ok_of_ext opts₂ le mem hext rs (SorterState.init α) rfl
  rw [sortOutput_of_addAll_ok opts₁ le mem rs _ htrans htotal hl1 haa1,
    sortOutput_of_addAll_ok opts₂ le mem rs st2 htrans htotal hl2 haa2, hlim]

/-- Witness for C4: sorting 5, 3, 1, 4, 2 with the default 64MB budget
(no spill) and with a 1-byte budget under extSortAllowed (which spills on
every second add) produce identical outputs. -/
theorem spill_transparency_C4_witness :
    sortOutput SortOptions.default (fun a b : Nat => decide (a ≤ b))
      (fun _ => 1) [5, 3, 1, 4, 2]
    = sortOutput
        { limit := 0, maxMemoryUsageBytes := 1, extSortAllowed := true }
        (fun a b : Nat => decide (a ≤ b)) (fun _ => 1) [5, 3, 1, 4, 2] :=
  spill_transparency_C4 SortOptions.default
    { limit := 0, maxMemoryUsageBytes := 1, extSortAllowed := true }
    (fun a b : Nat => decide (a ≤ b)) (fun _ => 1) [5, 3, 1, 4, 2]
    (by intro a b c hab hbc; simp only [decide_eq_true_eq] at hab hbc ⊢; omega)
    (by intro a b; rcases Nat.le_total a b with hc | hc <;> simp [hc])
    (by simp [SortOptions.default]) (by simp [SortOptions.default])
    (by simp [SortOptions.default]) rfl

/-- C5: when SortOptions.extSortAllowed is false, if the cumulative
estimated memory usage of the records added via Sorter::add exceeds
maxMemoryUsageBytes, the sort fails with MemoryLimitExceeded and no
output iterator is ever produced. -/
theorem budget_enforced_C5 {α : Type} (opts : SortOptions) (le : α → α → Bool)
    (mem : α → Nat) (rs : List α)
    (hext : opts.extSortAllowed = false)
    (hover : opts.maxMemoryUsageBytes < (rs.map mem).sum) :
    Sorter.addAll opts le mem (SorterState.init α) rs
      = .error .memoryLimitExceeded ∧
    ∀ out : List α, sortOutput opts le mem rs ≠ .ok out := by
  have h1 : Sorter.addAll opts le mem (SorterState.init α) rs
      = .error .memoryLimitExceeded :=
    addAll_overBudget opts le mem hext rs (SorterState.init α) rfl
      (Nat.zero_le _) (by simpa [SorterState.init] using hover)
  refine ⟨h1, ?_⟩
  intro out hok
  obtain ⟨-, st2, haa, -⟩ := sortOutput_ok_elim opts le mem rs out hok
  rw [h1] at haa
  cases haa

/-- Witness for C5: with a 3-byte budget, spilling disallowed, adding
four records of estimated size 1 each fails with MemoryLimitExceeded and
the pipeline never returns an iterator. -/
theorem budget_enforced_C5_witness :
    Sorter.addAll
        { limit := 0, maxMemoryUsageBytes := 3, extSortAllowed := false }
        (fun a b : Nat => decide (a ≤ b)) (fun _ => 1)
        (SorterState.init Nat) [4, 3, 2, 1]
      = .error .memoryLimitExceeded ∧
    ∀ out : List Nat,
      sortOutput { limit := 0, maxMemoryUsageBytes := 3, extSortAllowed := false }
        (fun a b : Nat => decide (a ≤ b)) (fun _ => 1) [4, 3, 2, 1]
      ≠ .ok out :=
  budget_enforced_C5
    { limit := 0, maxMemoryUsageBytes := 3, extSortAllowed := false }
    (fun a b : Nat => decide (a ≤ b)) (fun _ => 1) [4, 3, 2, 1]
    rfl (by simp)

/-- C6: with extSortAllowed true, after every completed add call the
estimated resident memory of the unsealed in-memory buffer (which is what
memUsed tracks: it equals the sum of the estimates of the buffered
records) does not exceed maxMemoryUsageBytes.  In the model the transient
excess inside a single add call is resolved by the forced spill before
that same add returns, so every observable state satisfies the bound. -/
theorem memory_invariant_C6 {α : Type} (opts : SortOptions)
    (le : α → α → Bool) (mem : α → Nat) (rs : List α) (st2 : SorterState α)
    (hext : opts.extSortAllowed = true)
    (h : Sorter.addAll opts le mem (SorterState.init α) rs = .ok st2) :
    st2.memUsed = (st2.buffer.map mem).sum ∧
    st2.memUsed ≤ opts.maxMemoryUsageBytes :=
  addAll_memUsed_inv opts le mem rs (SorterState.init α) st2 rfl rfl
    (Nat.zero_le _) h

/-- Witness for C6: with a 2-byte budget and extSortAllowed, after adding
five records of size 1 the surviving buffer holds the two records 4 and 2
for 2 bytes, within the budget, and one spilled run holds the rest. -/
theorem memory_invariant_C6_witness :
    ({ buffer := [4, 2], memUsed := 2
     , runs := [[1, 3, 5]]
     , doneCalled := false } : SorterState Nat).memUsed
      = (List.map (fun _ => 1)
          ({ buffer := [4, 2], memUsed := 2
           , runs := [[1, 3, 5]]
           , doneCalled := false } : SorterState Nat).buffer).sum ∧
    ({ buffer := [4, 2], memUsed := 2
     , runs := [[1, 3, 5]]
     , doneCalled := false } : SorterState Nat).memUsed ≤ 2 :=
  memory_invariant_C6
    { limit := 0, maxMemoryUsageBytes := 2, extSortAllowed := true }
    (fun a b : Nat => decide (a ≤ b)) (fun _ => 1) [5, 3, 1, 4, 2]
    { buffer := [4, 2], memUsed := 2
    , runs := [[1, 3, 5]]
    , doneCalled := false }
    rfl
    (by simp [Sorter.addAll, Sorter.add, SorterState.init,
      List.mergeSort, List.splitInTwo, List.merge,
      Bind.bind, Except.bind, Pure.pure, Except.pure])

/-- C7: each temporary run file is deleted from disk exactly once, by the
destruction of the last owner holding a reference to it: destroying every
one of its n owners (fully draining or abandoning the sort) leaves the
file deleted exactly once with no owner left, while after destroying only
k < n owners the file has not been deleted at all — so no two owners ever
independently delete the same file. -/
theorem file_deleted_once_C7 (n k : Nat) (hn : 0 < n) (hk : k < n) :
    (FileRC.releaseAll n { owners := n, deletions := 0 }).deletions = 1 ∧
    (FileRC.releaseAll n { owners := n, deletions := 0 }).owners = 0 ∧
    (FileRC.releaseAll k { owners := n, deletions := 0 }).deletions = 0 := by
  rw [releaseAll_full 0 n hn, releaseAll_below 0 k n hk]
  exact ⟨rfl, rfl, rfl⟩

/-- Witness for C7 with three owners (writer, reader, merge engine):
all three destroyed deletes the file exactly once; after two of them the
file is still present. -/
theorem file_deleted_once_C7_witness :
    (FileRC.releaseAll 3 { owners := 3, deletions := 0 }).deletions = 1 ∧
    (FileRC.releaseAll 3 { owners := 3, deletions := 0 }).owners = 0 ∧
    (FileRC.releaseAll 2 { owners := 3, deletions := 0 }).deletions = 0 :=
  file_deleted_once_C7 3 2 (by decide) (by decide)

/-- C8: calling Sorter::add after done() has been called — whatever the
state the sorter reached before done — is rejected immediately with
InvalidOperation, and so is any state whose done flag is set; supplying a
negative configuration value (a negative limit) at construction is
rejected immediately with InvalidOperation. -/
theorem invalid_operation_C8 {α : Type} (opts : SortOptions)
    (le : α → α → Bool) (mem : α → Nat) (st st' : SorterState α) (r : α)
    (hdone : st'.doneCalled = true) :
    Sorter.add opts le mem (Sorter.done opts le st).1 r
      = .error .invalidOperation ∧
    Sorter.add opts le mem st' r = .error .invalidOperation ∧
    ∀ opts2 : SortOptions, opts2.limit < 0 →
      Sorter.make α opts2 = .error .invalidOperation := by
  refine ⟨?_, ?_, ?_⟩
  · simp [Sorter.add, Sorter.done]
  · simp [Sorter.add, hdone]
  · intro opts2 h2
    simp [Sorter.make, h2]

/-- Witness for C8: adding 7 after done() on a fresh sorter is rejected,
as is a limit of -1 at construction. -/
theorem invalid_operation_C8_witness :
    Sorter.add SortOptions.default (fun a b : Nat => decide (a ≤ b))
        (fun _ => 1)
        (Sorter.done SortOptions.default (fun a b : Nat => decide (a ≤ b))
          (SorterState.init Nat)).1 7
      = .error .invalidOperation ∧
    Sorter.add SortOptions.default (fun a b : Nat => decide (a ≤ b))
        (fun _ => 1)
        { buffer := [], memUsed := 0, runs := [], doneCalled := true } 7
      = .error .invalidOperation ∧
    ∀ opts2 : SortOptions, opts2.limit < 0 →
      Sorter.make Nat opts2 = .error .invalidOperation :=
  invalid_operation_C8 SortOptions.default (fun a b : Nat => decide (a ≤ b))
    (fun _ => 1) (SorterState.init Nat)
    { buffer := [], memUsed := 0, runs := [], doneCalled := true } 7 rfl

/-- C9: a default-constructed SortOptions has limit 0 (unbounded),
extSortAllowed false, and a positive maxMemoryUsageBytes of 64 mebibytes,
on the order of tens of megabytes (between 10 MB and 100 MB). -/
theorem default_options_C9 :
    SortOptions.default.limit = 0 ∧
    SortOptions.default.extSortAllowed = false ∧
    0 < SortOptions.default.maxMemoryUsageBytes ∧
    10 * 1000 * 1000 ≤ SortOptions.default.maxMemoryUsageBytes ∧
    SortOptions.default.maxMemoryUsageBytes < 100 * 1000 * 1000 := by
  refine ⟨rfl, rfl, ?_, ?_, ?_⟩ <;> norm_num [SortOptions.default]

end NormousSorter
